import Mathlib

/-!
Verification of the traversal engine in `src/collector.rs` (the
`FileExplorer` struct and its `new` / `next` operations).

Modelling choices:
* A filesystem path is a list of name components (`Path := List Nat`);
  `entry.path()` for an entry named `n` of directory `d` is `d ++ [n]`.
* `std::io::Error` values are modelled as natural numbers (`Err := Nat`).
* The filesystem is an explicit environment `Fs` providing the two
  operations the code uses: the metadata probe `is_dir` and `read_dir`.
  `read_dir` yields the stream of `next_entry` results: a list of
  `Except Err Path`, where an `.error` element models a mid-iteration
  failure of the iterator (after which the Rust `while let Ok(Some _)`
  loop stops).
* `VecDeque` is a Lean list whose head is the deque front; `push_front`
  is `cons`, `push_back` appends a singleton, `pop_back` takes the last
  element (`popBack`).
* The recursion of the async `next` is made total with an explicit fuel
  argument: `nextF fs fuel ex = none` means the fuel ran out, and
  `some (r, ex2)` means the call returned `r` (the `Option<PathBuf>`
  result of the Rust function) with post-state `ex2`.
* The `Exclusions` and `Filter` collaborator objects live in files not
  part of the traversal core; following the spec they are modelled as
  pure predicates `Path → Bool` (spec §6: `is_excluded(path) → bool`,
  `accepts(path) → bool`).  `collector.rs` stores them in the struct and
  that is faithfully mirrored here.
-/

namespace DupFiles

abbrev Path := List Nat

abbrev Err := Nat

/-- The filesystem environment: exactly the two operations the code in
`collector.rs` performs (`metadata(..).is_dir()` and `read_dir` /
`next_entry`). -/
structure Fs where
  is_dir : Path → Except Err Bool
  read_dir : Path → Except Err (List (Except Err Path))

/-- Modelled from the spec: the `Exclusions` policy object, whose
defining file `src/exclusions.rs` is not among the traversal-core
sources; the spec reduces it to a pure predicate
`is_excluded(path) → bool`. -/
abbrev Exclusions := Path → Bool

/-- Modelled from the spec: the `Filter` policy object, whose defining
file `src/filter.rs` is not among the traversal-core sources; the spec
reduces it to a pure predicate `accepts(path) → bool`. -/
abbrev Filter := Path → Bool

/-- The `FileExplorer` struct of `collector.rs`, field for field. -/
structure Explorer where
  base_paths : List Path
  exclusions : Exclusions
  filter : Filter
  walk_dirs : List Path
  walk_files : List Path
  failed_paths : List (Path × Err)

/-- `VecDeque::pop_back`: remove and return the back (last) element. -/
def popBack (l : List Path) : Option (Path × List Path) :=
  match l.getLast? with
  | none => none
  | some x => some (x, l.dropLast)

/-- One iteration of the base-path seeding loop in `FileExplorer::new`:
probe the path; on `Ok(true)` push it to the front of the dirs deque, on
`Ok(false)` to the front of the files deque, on `Err` drop it (the Rust
code only prints a diagnostic). -/
def seedStep (fs : Fs) (acc : List Path × List Path) (p : Path) :
    List Path × List Path :=
  match fs.is_dir p with
  | .ok true => (p :: acc.1, acc.2)
  | .ok false => (acc.1, p :: acc.2)
  | .error _ => acc

/-- `FileExplorer::new`: seed the two deques from the base paths in
input order, start with an empty failure log.  The Rust function wraps
the result in `Ok(..)` unconditionally; the wrapper is omitted. -/
def FileExplorer.new (bps : List Path) (excl : Exclusions) (filt : Filter)
    (fs : Fs) : Explorer :=
  let q := bps.foldl (seedStep fs) ([], [])
  { base_paths := bps
    exclusions := excl
    filter := filt
    walk_dirs := q.1
    walk_files := q.2
    failed_paths := [] }

/-- The entry-processing loop of `FileExplorer::next`
(`while let Ok(Some(entry)) = entries.next_entry().await`): each `.ok`
entry is probed and pushed to the back of the matching deque (or its
probe error is appended to `failed_paths`); the first `.error` element
of the stream stops the loop, silently discarding the error and the
remainder of the stream. -/
def processEntries (fs : Fs) : List (Except Err Path) → Explorer → Explorer
  | [], ex => ex
  | .error _ :: _, ex => ex
  | .ok p :: rest, ex =>
    match fs.is_dir p with
    | .ok true =>
      processEntries fs rest { ex with walk_dirs := ex.walk_dirs ++ [p] }
    | .ok false =>
      processEntries fs rest { ex with walk_files := ex.walk_files ++ [p] }
    | .error e =>
      processEntries fs rest
        { ex with failed_paths := ex.failed_paths ++ [(p, e)] }

/-- `FileExplorer::next`, with fuel for the `async_recursion` self-calls.
`none` is fuel exhaustion; `some (r, ex2)` is a completed call returning
`r` in post-state `ex2`. -/
def nextF (fs : Fs) : Nat → Explorer → Option (Option Path × Explorer)
  | 0, _ => none
  | fuel + 1, ex =>
    match popBack ex.walk_files with
    | some (f, rest) => some (some f, { ex with walk_files := rest })
    | none =>
      match popBack ex.walk_dirs with
      | none => some (none, ex)
      | some (d, rest) =>
        match fs.read_dir d with
        | .error e =>
          nextF fs fuel
            { ex with
              walk_dirs := rest
              failed_paths := ex.failed_paths ++ [(d, e)] }
        | .ok stream =>
          nextF fs fuel (processEntries fs stream { ex with walk_dirs := rest })

/-- Repeatedly call `next` until it returns `none`, collecting the
emitted paths (the `while let Some(_) = explorer.next()` loop of the
tests).  `none` means the fuel ran out. -/
def drainF (fs : Fs) : Nat → Explorer → Option (List Path)
  | 0, _ => none
  | fuel + 1, ex =>
    match nextF fs (fuel + 1) ex with
    | none => none
    | some (none, _) => some []
    | some (some p, ex2) => (drainF fs fuel ex2).map (fun l => p :: l)

/-! ### A concrete class of filesystems: finite trees with error decoration

To quantify over "every finite filesystem tree, with any combination of
I/O failures" we build `Fs` environments from explicit finite trees.
`ENode.bad e` is a node whose metadata probe fails with `e`;
`ENode.dir o es s` is a directory whose `read_dir` fails with `e` when
`o = some e`, whose successfully yielded entries are `es`, and whose
entry iteration ends with a mid-stream error when `s = some e`. -/

inductive ENode where
  | file : ENode
  | bad : Err → ENode
  | dir : Option Err → List (Nat × ENode) → Option Err → ENode

/-- Look up the child named `n` (first match, as on a real filesystem
where names are unique). -/
def lookupChild (n : Nat) : List (Nat × ENode) → Option ENode
  | [] => none
  | (m, c) :: rest => if m = n then some c else lookupChild n rest

/-- Resolve a relative component list inside a tree. -/
def resolveNode : ENode → List Nat → Option ENode
  | t, [] => some t
  | .dir _ es _, n :: rest =>
    match lookupChild n es with
    | some c => resolveNode c rest
    | none => none
  | .file, _ :: _ => none
  | .bad _, _ :: _ => none

/-- Strip a root path from the front of a path. -/
def stripRoot : Path → Path → Option Path
  | [], p => some p
  | _ :: _, [] => none
  | r :: rs, q :: qs => if r = q then stripRoot rs qs else none

/-- Resolve an absolute path against a forest of rooted trees
(first root whose subtree resolves wins). -/
def resolveForest : List (Path × ENode) → Path → Option ENode
  | [], _ => none
  | (r, t) :: rest, p =>
    match stripRoot r p with
    | none => resolveForest rest p
    | some q =>
      match resolveNode t q with
      | some n => some n
      | none => resolveForest rest p

/-- The metadata probe result a node produces. -/
def probeOf : ENode → Except Err Bool
  | .file => .ok false
  | .bad e => .error e
  | .dir _ _ _ => .ok true

/-- The `next_entry` stream of a directory located at `p`: the entry
paths in order, followed by the mid-stream error if there is one. -/
def entriesOf (p : Path) (es : List (Nat × ENode)) (s : Option Err) :
    List (Except Err Path) :=
  es.map (fun pr => Except.ok (p ++ [pr.1])) ++
    (match s with
     | some e => [Except.error e]
     | none => [])

/-- The `Fs` environment described by a forest of error-decorated trees.
Unresolvable paths fail every operation (error code 0); `read_dir` on a
non-directory fails (error code 1). -/
def fsOfForest (f : List (Path × ENode)) : Fs where
  is_dir p :=
    match resolveForest f p with
    | some n => probeOf n
    | none => .error 0
  read_dir p :=
    match resolveForest f p with
    | some (.dir none es s) => .ok (entriesOf p es s)
    | some (.dir (some e) _ _) => .error e
    | some _ => .error 1
    | none => .error 0

mutual

/-- Size of a tree: the number of nodes.  Used as the termination
measure of the traversal. -/
def esize : ENode → Nat
  | .file => 1
  | .bad _ => 1
  | .dir _ es _ => 1 + esizeList es

/-- Total size of a child list. -/
def esizeList : List (Nat × ENode) → Nat
  | [] => 0
  | pr :: rest => esize pr.2 + esizeList rest

end

mutual

/-- The files contained in the subtree rooted at absolute path `a`. -/
def efiles : Path → ENode → List Path
  | a, .file => [a]
  | _, .bad _ => []
  | a, .dir _ es _ => efilesList a es

/-- The files contained under a child list of the directory at `a`. -/
def efilesList : Path → List (Nat × ENode) → List Path
  | _, [] => []
  | a, (n, c) :: rest => efiles (a ++ [n]) c ++ efilesList a rest

end

mutual

/-- A tree is error-free: no failing probes, no failing `read_dir`,
no mid-stream iteration errors. -/
def errFree : ENode → Bool
  | .file => true
  | .bad _ => false
  | .dir (some _) _ _ => false
  | .dir none _ (some _) => false
  | .dir none es none => errFreeList es

/-- Error-freedom of a child list. -/
def errFreeList : List (Nat × ENode) → Bool
  | [] => true
  | (_, c) :: rest => errFree c && errFreeList rest

end

/-- `n` does not occur as a key of the child list. -/
def keyFree (n : Nat) : List (Nat × ENode) → Bool
  | [] => true
  | (m, _) :: rest => (decide (m ≠ n)) && keyFree n rest

mutual

/-- Well-formed tree: sibling names are distinct at every directory
(as on a real filesystem). -/
def wfN : ENode → Bool
  | .file => true
  | .bad _ => true
  | .dir _ es _ => wfEntries es

/-- Well-formedness of a child list: distinct keys, children
well-formed. -/
def wfEntries : List (Nat × ENode) → Bool
  | [] => true
  | (n, c) :: rest => keyFree n rest && wfN c && wfEntries rest

end

/-- Child of an optional resolved node. -/
def childOf (x : Option ENode) (n : Nat) : Option ENode :=
  match x with
  | some (.dir _ es _) => lookupChild n es
  | _ => none

/-- Termination weight of a single pending path: the size of the
subtree it resolves to (an unresolvable path still costs one step to
discard). -/
def weight (f : List (Path × ENode)) (p : Path) : Nat :=
  match resolveForest f p with
  | some n => esize n
  | none => 1

/-- Total weight of a pending-directory list. -/
def weightDirs (f : List (Path × ENode)) : List Path → Nat
  | [] => 0
  | d :: ds => weight f d + weightDirs f ds

/-- Termination measure of an explorer state: every completed unfolding
of `next` strictly decreases it. -/
def phi (f : List (Path × ENode)) (ex : Explorer) : Nat :=
  ex.walk_files.length + weightDirs f ex.walk_dirs

/-- The files below a pending path (empty for unresolvable paths). -/
def efilesAt (f : List (Path × ENode)) (p : Path) : List Path :=
  match resolveForest f p with
  | some n => efiles p n
  | none => []

/-- The multiset of files still to be emitted from the pending
directories. -/
def pendingDirs (f : List (Path × ENode)) : List Path → Multiset Path
  | [] => 0
  | d :: ds => (efilesAt f d : Multiset Path) + pendingDirs f ds

/-- The multiset of paths an explorer state has yet to emit: the
pending files plus all files below the pending directories. -/
def pendingOf (f : List (Path × ENode)) (ex : Explorer) : Multiset Path :=
  (ex.walk_files : Multiset Path) + pendingDirs f ex.walk_dirs

/-- Every pending directory resolves to an error-free, well-formed
directory node. -/
def GoodDirs (f : List (Path × ENode)) (ds : List Path) : Prop :=
  ∀ p ∈ ds, ∃ es, resolveForest f p = some (.dir none es none) ∧
    wfEntries es = true ∧ errFreeList es = true

/-- Boolean test for a successful directory probe. -/
def isOkTrue : Except Err Bool → Bool
  | .ok true => true
  | _ => false

/-- Boolean test for a successful non-directory probe. -/
def isOkFalse : Except Err Bool → Bool
  | .ok false => true
  | _ => false

/-! ### Concrete fixtures used by counterexamples and witnesses -/

/-- A directory `/0` containing the single file `/0/0`. -/
def fsOneFile : Fs := fsOfForest [([0], .dir none [(0, .file)] none)]

/-- A directory `/0` containing the single file `/0/5`. -/
def fsOneFileB : Fs := fsOfForest [([0], .dir none [(5, .file)] none)]

/-- Two empty directories `/0` and `/1`. -/
def fsTwoRoots : Fs :=
  fsOfForest [([0], .dir none [] none), ([1], .dir none [] none)]

/-- A directory `/0` whose iterator yields the file `/0/0` and then
fails mid-stream with error 7. -/
def fsMidErr : Fs := fsOfForest [([0], .dir none [(0, .file)] (some 7))]

/-- A directory `/1` whose iterator yields the file `/1/0` and then
fails mid-stream with error 8. -/
def fsMidErrB : Fs := fsOfForest [([1], .dir none [(0, .file)] (some 8))]

/-- A directory `/0` containing a subdirectory `/0/0` and a file `/0/1`. -/
def fsDirAndFile : Fs :=
  fsOfForest [([0], .dir none [(0, .dir none [] none), (1, .file)] none)]

/-- An empty filesystem: every operation fails. -/
def fsEmpty : Fs := fsOfForest []

/-- An error-free tree with files `/0/0`, `/0/1/2`, `/0/3`. -/
def treeSmall : ENode :=
  .dir none [(0, .file), (1, .dir none [(2, .file)] none), (3, .file)] none

/-- A tree decorated with every kind of I/O failure: a child whose
probe fails, a subdirectory whose open fails, and a subdirectory whose
entry iteration fails mid-stream. -/
def treeMessy : ENode :=
  .dir none [(0, .bad 1), (1, .file), (2, .dir (some 5) [] none),
    (3, .dir none [(0, .file)] (some 9))] none

/-- An arbitrary explorer state holding an unresolvable pending
directory besides genuine ones. -/
def exMessy : Explorer :=
  { base_paths := []
    exclusions := fun _ => false
    filter := fun _ => true
    walk_dirs := [[0], [9, 9]]
    walk_files := [[4]]
    failed_paths := [] }

/-- An explorer state with pending files, used to exercise the
file-popping branch of `next`. -/
def exPendingFiles : Explorer :=
  { base_paths := [[1]]
    exclusions := fun _ => false
    filter := fun _ => true
    walk_dirs := [[3]]
    walk_files := [[1], [2]]
    failed_paths := [([9], 4)] }

/-- An exhausted explorer state: both queues empty. -/
def exExhausted : Explorer :=
  { base_paths := [[7]]
    exclusions := fun _ => false
    filter := fun _ => true
    walk_dirs := []
    walk_files := []
    failed_paths := [] }

/-- Classification invariant: every pending directory probed as a
directory, every pending file probed as a non-directory.  It holds for
freshly constructed explorers and is preserved by `next`. -/
def Inv (fs : Fs) (ex : Explorer) : Prop :=
  (∀ p ∈ ex.walk_dirs, fs.is_dir p = .ok true) ∧
  (∀ p ∈ ex.walk_files, fs.is_dir p = .ok false)

/-- `Reaches fs ex1 ex2`: the state `ex2` arises from `ex1` by finitely
many completed calls to `next`. -/
inductive Reaches (fs : Fs) : Explorer → Explorer → Prop
  | refl (ex : Explorer) : Reaches fs ex ex
  | step {ex1 ex2 ex3 : Explorer} {fuel : Nat} {r : Option Path} :
      Reaches fs ex1 ex2 → nextF fs fuel ex2 = some (r, ex3) →
      Reaches fs ex1 ex3

/-! ### Deque lemmas -/

theorem popBack_nil : popBack [] = none := rfl

theorem popBack_concat (l : List Path) (x : Path) :
    popBack (l ++ [x]) = some (x, l) := by
  simp [popBack, List.getLast?_concat, List.dropLast_concat]

theorem popBack_eq_none_iff (l : List Path) : popBack l = none ↔ l = [] := by
  constructor
  · intro h
    rcases List.eq_nil_or_concat l with rfl | ⟨L, b, rfl⟩
    · rfl
    · simp only [List.concat_eq_append, popBack_concat] at h
      exact absurd h (by simp)
  · intro h
    subst h
    rfl

theorem popBack_eq_some (l front : List Path) (x : Path)
    (h : popBack l = some (x, front)) : l = front ++ [x] := by
  rcases List.eq_nil_or_concat l with rfl | ⟨L, b, rfl⟩
  · exact absurd h (by simp [popBack_nil])
  · simp only [List.concat_eq_append, popBack_concat, Option.some.injEq,
      Prod.mk.injEq] at h
    obtain ⟨rfl, rfl⟩ := h
    simp

/-! ### Exhaustion behaviour of `next` -/

theorem nextF_none_imp_empty (fs : Fs) :
    ∀ (fuel : Nat) (ex ex2 : Explorer),
      nextF fs fuel ex = some (none, ex2) →
      ex2.walk_files = [] ∧ ex2.walk_dirs = [] := by
  intro fuel
  induction fuel with
  | zero => intro ex ex2 h; simp [nextF] at h
  | succ n ih =>
    intro ex ex2 h
    rw [nextF] at h
    cases hf : popBack ex.walk_files with
    | some pr =>
      obtain ⟨f, rest⟩ := pr
      rw [hf] at h
      simp at h
    | none =>
      simp only [hf] at h
      cases hd : popBack ex.walk_dirs with
      | none =>
        simp only [hd, Option.some.injEq, Prod.mk.injEq] at h
        obtain ⟨-, rfl⟩ := h
        exact ⟨(popBack_eq_none_iff _).1 hf, (popBack_eq_none_iff _).1 hd⟩
      | some pr =>
        obtain ⟨d, rest⟩ := pr
        simp only [hd] at h
        cases hr : fs.read_dir d with
        | error e => simp only [hr] at h; exact ih _ _ h
        | ok stream => simp only [hr] at h; exact ih _ _ h

theorem nextF_of_empty (fs : Fs) (fuel : Nat) (ex : Explorer)
    (h1 : ex.walk_files = []) (h2 : ex.walk_dirs = []) :
    nextF fs (fuel + 1) ex = some (none, ex) := by
  rw [nextF]
  simp [h1, h2, popBack_nil]

/-! ### Construction: seeding the deques -/

theorem foldl_seedStep (fs : Fs) :
    ∀ (bps : List Path) (ds fls : List Path),
      bps.foldl (seedStep fs) (ds, fls) =
        ((bps.filter fun p => isOkTrue (fs.is_dir p)).reverse ++ ds,
         (bps.filter fun p => isOkFalse (fs.is_dir p)).reverse ++ fls) := by
  intro bps
  induction bps with
  | nil => intro ds fls; simp
  | cons p rest ih =>
    intro ds fls
    rw [List.foldl_cons]
    cases hp : fs.is_dir p with
    | ok b =>
      cases b with
      | true =>
        rw [show seedStep fs (ds, fls) p = (p :: ds, fls) by
          simp [seedStep, hp]]
        rw [ih]
        simp [List.filter_cons, hp, isOkTrue, isOkFalse]
      | false =>
        rw [show seedStep fs (ds, fls) p = (ds, p :: fls) by
          simp [seedStep, hp]]
        rw [ih]
        simp [List.filter_cons, hp, isOkTrue, isOkFalse]
    | error e =>
      rw [show seedStep fs (ds, fls) p = (ds, fls) by simp [seedStep, hp]]
      rw [ih]
      simp [List.filter_cons, hp, isOkTrue, isOkFalse]

theorem new_walk_dirs (bps : List Path) (excl filt : Path → Bool) (fs : Fs) :
    (FileExplorer.new bps excl filt fs).walk_dirs =
      (bps.filter fun p => isOkTrue (fs.is_dir p)).reverse := by
  simp [FileExplorer.new, foldl_seedStep]

theorem new_walk_files (bps : List Path) (excl filt : Path → Bool) (fs : Fs) :
    (FileExplorer.new bps excl filt fs).walk_files =
      (bps.filter fun p => isOkFalse (fs.is_dir p)).reverse := by
  simp [FileExplorer.new, foldl_seedStep]

/-- Claim C5 (confirmed): a base path whose metadata probe fails is
silently dropped: `failed_paths` is empty after construction (so no
probe-failed base path is ever in it), construction always completes,
and the two deques are seeded with exactly the successfully probed base
paths of the matching kind, in input order pushed to the front. -/
theorem C5_probe_failure_dropped (bps : List Path) (excl filt : Path → Bool)
    (fs : Fs) :
    (FileExplorer.new bps excl filt fs).failed_paths = [] ∧
    (FileExplorer.new bps excl filt fs).walk_dirs =
      (bps.filter fun p => isOkTrue (fs.is_dir p)).reverse ∧
    (FileExplorer.new bps excl filt fs).walk_files =
      (bps.filter fun p => isOkFalse (fs.is_dir p)).reverse :=
  ⟨rfl, new_walk_dirs bps excl filt fs, new_walk_files bps excl filt fs⟩

/-- Claim C4 (counterexample): over two directory base paths `/0` and
`/1` (in this input order), construction leaves `walk_dirs = [[1], [0]]`
with `[0]` at the back, so the very first `pop_back` removes the FIRST
base path, not the last: the claimed "first base path is the last one
popped" is false. -/
theorem C4_counterexample :
    (FileExplorer.new [[0], [1]] (fun _ => false) (fun _ => true)
        fsTwoRoots).walk_dirs = [[1], [0]] ∧
    (popBack (FileExplorer.new [[0], [1]] (fun _ => false) (fun _ => true)
        fsTwoRoots).walk_dirs).map Prod.fst = some [0] :=
  ⟨rfl, rfl⟩

/-- Claim C4 (amended): base paths are pushed to the front of their
deques in input order, so among base paths of the same kind the FIRST
base path in the input sequence is the FIRST one popped by `next`
(FIFO queue-of-roots behaviour): the back of each deque is the first
base path of the matching kind. -/
theorem C4_first_base_popped_first (bps : List Path)
    (excl filt : Path → Bool) (fs : Fs) :
    (FileExplorer.new bps excl filt fs).walk_dirs.getLast? =
      (bps.filter fun p => isOkTrue (fs.is_dir p)).head? ∧
    (FileExplorer.new bps excl filt fs).walk_files.getLast? =
      (bps.filter fun p => isOkFalse (fs.is_dir p)).head? := by
  rw [new_walk_dirs, new_walk_files]
  exact ⟨List.getLast?_reverse _, List.getLast?_reverse _⟩

/-! ### The file-popping branch of `next` -/

/-- Claim C10 (confirmed): when `walk_files` is non-empty, `next`
returns its back element, removes exactly that element, and leaves
`walk_dirs`, `failed_paths` and `base_paths` unchanged. -/
theorem C10_pop_file_frame (fs : Fs) (fuel : Nat) (ex : Explorer) (p : Path)
    (h : ex.walk_files.getLast? = some p) :
    ∃ ex2, nextF fs (fuel + 1) ex = some (some p, ex2) ∧
      ex2.walk_files = ex.walk_files.dropLast ∧
      ex2.walk_dirs = ex.walk_dirs ∧
      ex2.failed_paths = ex.failed_paths ∧
      ex2.base_paths = ex.base_paths := by
  refine ⟨{ ex with walk_files := ex.walk_files.dropLast }, ?_, rfl, rfl,
    rfl, rfl⟩
  rw [nextF]
  simp [popBack, h]

/-- Witness for C10 at the fixture state. -/
theorem C10_pop_file_frame_witness :
    ∃ ex2, nextF fsEmpty 1 exPendingFiles = some (some [2], ex2) ∧
      ex2.walk_files = exPendingFiles.walk_files.dropLast ∧
      ex2.walk_dirs = exPendingFiles.walk_dirs ∧
      ex2.failed_paths = exPendingFiles.failed_paths ∧
      ex2.base_paths = exPendingFiles.base_paths :=
  C10_pop_file_frame fsEmpty 0 exPendingFiles [2] (by rfl)

/-! ### Exhaustion is permanent -/

/-- Claim C8 (confirmed): once a call to `next` has returned `none`,
every later call on the resulting explorer returns `none` again (and
leaves the state unchanged), for any amount of fuel. -/
theorem C8_exhaustion_permanent (fs : Fs) (fuel : Nat) (ex ex2 : Explorer)
    (h : nextF fs fuel ex = some (none, ex2)) :
    ∀ k, nextF fs (k + 1) ex2 = some (none, ex2) := by
  intro k
  obtain ⟨h1, h2⟩ := nextF_none_imp_empty fs fuel ex ex2 h
  exact nextF_of_empty fs k ex2 h1 h2

/-- Witness for C8 at a concrete exhausted state. -/
theorem C8_exhaustion_permanent_witness :
    nextF fsEmpty 5 exExhausted = some (none, exExhausted) :=
  C8_exhaustion_permanent fsEmpty 1 exExhausted exExhausted (by rfl) 4

/-! ### The policy hooks are never consulted (claims C1 and C2)

`FileExplorer::next` in `collector.rs` never reads `self.exclusions` or
`self.filter`: the traversal below is independent of both policies, so
a path the Exclusions policy excludes is enqueued and emitted anyway,
and a path the Filter rejects is returned anyway. -/

/-- Claim C1 (code bug): for EVERY exclusions policy — in particular one
that excludes every path — enumerating the directory `/0` that contains
the single file `/0/0` still enqueues and emits `/0/0`: the Exclusions
policy is never consulted before enqueueing, contradicting both the spec
and the `exclusions` field comment in `collector.rs`. -/
theorem C1_exclusions_never_consulted (excl filt : Path → Bool) :
    (processEntries fsOneFile [Except.ok [0, 0]]
        (FileExplorer.new [[0]] excl filt fsOneFile)).walk_files = [[0, 0]] ∧
    (nextF fsOneFile 2
        (FileExplorer.new [[0]] excl filt fsOneFile)).map Prod.fst =
      some (some [0, 0]) :=
  ⟨rfl, rfl⟩

/-- Claim C2 (code bug): for EVERY filter policy — in particular one that
rejects every path — `next` over the directory `/0` containing the single
file `/0/5` still returns `/0/5`: the Filter policy is never consulted
before returning a path, contradicting both the spec and the `filter`
field comment in `collector.rs`. -/
theorem C2_filter_never_consulted (excl filt : Path → Bool) :
    (nextF fsOneFileB 2
        (FileExplorer.new [[0]] excl filt fsOneFileB)).map Prod.fst =
      some (some [0, 5]) :=
  rfl

/-! ### Mid-iteration errors are silently dropped (claim C3) -/

/-- Claim C3 (counterexample): over the directory `/0` whose iterator
yields the file `/0/0` and then fails mid-stream with error 7, `next`
abandons the remainder, keeps the enqueued entry (and emits it), but
`failed_paths` stays EMPTY: the pair `([0], 7)` the claim requires is
never appended. -/
theorem C3_counterexample :
    (nextF fsMidErr 2
        (FileExplorer.new [[0]] (fun _ => false) (fun _ => true)
          fsMidErr)).map (fun r => (r.1, r.2.failed_paths)) =
      some (some [0, 0], []) :=
  rfl

/-- Helper: `processEntries` stops at the first `.error` element of the
stream and leaves the state exactly as after the prefix before it. -/
theorem processEntries_stops_at_error (fs : Fs)
    (es1 : List (Except Err Path)) (e : Err) (es2 : List (Except Err Path)) :
    ∀ ex, processEntries fs (es1 ++ Except.error e :: es2) ex =
      processEntries fs es1 ex := by
  induction es1 with
  | nil => intro ex; rfl
  | cons hd rest ih =>
    intro ex
    cases hd with
    | error e2 => rfl
    | ok p =>
      rw [List.cons_append, processEntries, processEntries]
      cases hp : fs.is_dir p with
      | ok b =>
        cases b with
        | true => simp only [hp]; exact ih _
        | false => simp only [hp]; exact ih _
      | error e2 => simp only [hp]; exact ih _

/-- Claim C3 (amended): when the entry stream of a directory surfaces an
error mid-iteration, the remainder of the stream is abandoned and the
entries already processed are retained, but nothing is appended to
`failed_paths` for the iterator error — the state is exactly the state
after the prefix before the error, the error itself being silently
dropped by the `while let Ok(Some(..))` loop. -/
theorem C3_mid_iteration_error_dropped (fs : Fs)
    (es1 : List (Except Err Path)) (e : Err) (es2 : List (Except Err Path)) :
    ∀ ex, processEntries fs (es1 ++ Except.error e :: es2) ex =
      processEntries fs es1 ex :=
  processEntries_stops_at_error fs es1 e es2

/-! ### The classification invariant (claim C9) -/

theorem isOkTrue_iff (x : Except Err Bool) :
    isOkTrue x = true ↔ x = .ok true := by
  cases x with
  | ok b => cases b <;> simp [isOkTrue]
  | error e => simp [isOkTrue]

theorem isOkFalse_iff (x : Except Err Bool) :
    isOkFalse x = true ↔ x = .ok false := by
  cases x with
  | ok b => cases b <;> simp [isOkFalse]
  | error e => simp [isOkFalse]

theorem Inv_new (bps : List Path) (excl filt : Path → Bool) (fs : Fs) :
    Inv fs (FileExplorer.new bps excl filt fs) := by
  constructor
  · intro p hp
    rw [new_walk_dirs] at hp
    rw [List.mem_reverse, List.mem_filter] at hp
    exact (isOkTrue_iff _).1 hp.2
  · intro p hp
    rw [new_walk_files] at hp
    rw [List.mem_reverse, List.mem_filter] at hp
    exact (isOkFalse_iff _).1 hp.2

theorem Inv_processEntries (fs : Fs) :
    ∀ (stream : List (Except Err Path)) (ex : Explorer),
      Inv fs ex → Inv fs (processEntries fs stream ex) := by
  intro stream
  induction stream with
  | nil => intro ex h; exact h
  | cons hd rest ih =>
    intro ex h
    cases hd with
    | error e => exact h
    | ok p =>
      rw [processEntries]
      cases hp : fs.is_dir p with
      | ok b =>
        cases b with
        | true =>
          simp only [hp]
          refine ih _ ⟨?_, h.2⟩
          intro q hq
          rcases List.mem_append.1 hq with hq | hq
          · exact h.1 q hq
          · rw [List.mem_singleton] at hq
            subst hq
            exact hp
        | false =>
          simp only [hp]
          refine ih _ ⟨h.1, ?_⟩
          intro q hq
          rcases List.mem_append.1 hq with hq | hq
          · exact h.2 q hq
          · rw [List.mem_singleton] at hq
            subst hq
            exact hp
      | error e =>
        simp only [hp]
        exact ih _ h

theorem Inv_nextF (fs : Fs) :
    ∀ (fuel : Nat) (ex : Explorer) (r : Option Path) (ex2 : Explorer),
      nextF fs fuel ex = some (r, ex2) → Inv fs ex →
      Inv fs ex2 ∧ (∀ p, r = some p → fs.is_dir p = .ok false) := by
  intro fuel
  induction fuel with
  | zero => intro ex r ex2 h; simp [nextF] at h
  | succ n ih =>
    intro ex r ex2 h hinv
    rw [nextF] at h
    cases hf : popBack ex.walk_files with
    | some pr =>
      obtain ⟨f, rest⟩ := pr
      simp only [hf, Option.some.injEq, Prod.mk.injEq] at h
      obtain ⟨rfl, rfl⟩ := h
      have hsplit := popBack_eq_some _ _ _ hf
      constructor
      · refine ⟨hinv.1, ?_⟩
        intro q hq
        exact hinv.2 q (by rw [hsplit]; exact List.mem_append_left _ hq)
      · intro p hp
        have hfp : f = p := by simpa using hp
        rw [← hfp]
        exact hinv.2 f (by rw [hsplit]; simp)
    | none =>
      simp only [hf] at h
      cases hd : popBack ex.walk_dirs with
      | none =>
        simp only [hd, Option.some.injEq, Prod.mk.injEq] at h
        obtain ⟨rfl, rfl⟩ := h
        exact ⟨hinv, by intro p hp; simp at hp⟩
      | some pr =>
        obtain ⟨d, rest⟩ := pr
        simp only [hd] at h
        have hsplit := popBack_eq_some _ _ _ hd
        have hrest : ∀ q ∈ rest, fs.is_dir q = .ok true := by
          intro q hq
          exact hinv.1 q (by rw [hsplit]; exact List.mem_append_left _ hq)
        cases hr : fs.read_dir d with
        | error e =>
          simp only [hr] at h
          exact ih _ _ _ h ⟨hrest, hinv.2⟩
        | ok stream =>
          simp only [hr] at h
          exact ih _ _ _ h (Inv_processEntries fs stream _ ⟨hrest, hinv.2⟩)

theorem Inv_Reaches (fs : Fs) (ex0 ex : Explorer)
    (h : Reaches fs ex0 ex) (h0 : Inv fs ex0) : Inv fs ex := by
  induction h with
  | refl => exact h0
  | step hr hn ih => exact (Inv_nextF fs _ _ _ _ hn ih).1

/-- Claim C9 (confirmed): a path sitting in `walk_dirs` in any state
reachable from construction (i.e. any path ever enqueued as a directory
and not yet expanded) is never the path returned by a `next` call made
in any reachable state: directories are expanded, never yielded. -/
theorem C9_dirs_never_emitted (fs : Fs) (bps : List Path)
    (excl filt : Path → Bool) (ex1 ex2 : Explorer) (q p : Path) (fuel : Nat)
    (h1 : Reaches fs (FileExplorer.new bps excl filt fs) ex1)
    (h2 : Reaches fs (FileExplorer.new bps excl filt fs) ex2)
    (hq : q ∈ ex1.walk_dirs)
    (hp : (nextF fs fuel ex2).map Prod.fst = some (some p)) : p ≠ q := by
  have hinv1 := Inv_Reaches fs _ ex1 h1 (Inv_new bps excl filt fs)
  have hinv2 := Inv_Reaches fs _ ex2 h2 (Inv_new bps excl filt fs)
  have hqd : fs.is_dir q = .ok true := hinv1.1 q hq
  rw [Option.map_eq_some'] at hp
  obtain ⟨⟨r, ex3⟩, hn, hfst⟩ := hp
  obtain rfl : r = some p := hfst
  have hpf : fs.is_dir p = .ok false :=
    (Inv_nextF fs fuel ex2 _ ex3 hn hinv2).2 p rfl
  intro hpe
  rw [hpe, hqd] at hpf
  exact absurd hpf (by simp)

/-- Witness for C9: in the directory `/0` holding subdirectory `/0/0`
and file `/0/1`, the enqueued directory `/0` is in `walk_dirs` after
construction, `next` emits `/0/1`, and indeed `/0/1` is not `/0`. -/
theorem C9_dirs_never_emitted_witness :
    ([0] : Path) ∈ (FileExplorer.new [[0]] (fun _ => false) (fun _ => true)
        fsDirAndFile).walk_dirs ∧
    (nextF fsDirAndFile 2 (FileExplorer.new [[0]] (fun _ => false)
        (fun _ => true) fsDirAndFile)).map Prod.fst = some (some [0, 1]) ∧
    ([0, 1] : Path) ≠ [0] :=
  ⟨by decide, by rfl,
    C9_dirs_never_emitted fsDirAndFile [[0]] (fun _ => false) (fun _ => true)
      _ _ [0] [0, 1] 2 (Reaches.refl _) (Reaches.refl _) (by decide) (by rfl)⟩

/-! ### Resolution lemmas for single-rooted forests -/

theorem stripRoot_self : ∀ (r : Path), stripRoot r r = some [] := by
  intro r
  induction r with
  | nil => rfl
  | cons a rs ih => simp [stripRoot, ih]

theorem stripRoot_append (r : Path) :
    ∀ (p q l : Path), stripRoot r p = some q →
      stripRoot r (p ++ l) = some (q ++ l) := by
  induction r with
  | nil =>
    intro p q l h
    obtain rfl : p = q := by simpa [stripRoot] using h
    simp [stripRoot]
  | cons a rs ih =>
    intro p q l h
    cases p with
    | nil => simp [stripRoot] at h
    | cons b ps =>
      rw [List.cons_append]
      rw [stripRoot] at h ⊢
      by_cases hab : a = b
      · simp only [if_pos hab] at h ⊢
        exact ih ps q l h
      · simp only [if_neg hab] at h
        exact absurd h (by simp)

theorem resolveNode_append :
    ∀ (q : List Nat) (t : ENode) (n : Nat),
      resolveNode t (q ++ [n]) = childOf (resolveNode t q) n := by
  intro q
  induction q with
  | nil =>
    intro t n
    cases t with
    | file => rfl
    | bad e => rfl
    | dir o es s =>
      show resolveNode (.dir o es s) [n] = childOf (some (.dir o es s)) n
      rw [resolveNode, childOf]
      cases h : lookupChild n es with
      | some c => simp [resolveNode]
      | none => rfl
  | cons m qs ih =>
    intro t n
    cases t with
    | file => rfl
    | bad e => rfl
    | dir o es s =>
      rw [List.cons_append]
      show (match lookupChild m es with
            | some c => resolveNode c (qs ++ [n])
            | none => none) =
          childOf (match lookupChild m es with
            | some c => resolveNode c qs
            | none => none) n
      cases h : lookupChild m es with
      | some c => exact ih c n
      | none => rfl

theorem resolveForest_single_eq (root : Path) (t : ENode) (p : Path) :
    resolveForest [(root, t)] p = (stripRoot root p).bind (resolveNode t) := by
  rw [resolveForest]
  cases hs : stripRoot root p with
  | none => rfl
  | some q =>
    cases hr : resolveNode t q with
    | some n => simp [hr]
    | none => simp [hr, resolveForest]

theorem resolveForest_root (root : Path) (t : ENode) :
    resolveForest [(root, t)] root = some t := by
  rw [resolveForest_single_eq, stripRoot_self]
  simp [resolveNode]

theorem keyFree_ne :
    ∀ (es : List (Nat × ENode)) (m n : Nat) (c : ENode),
      keyFree m es = true → (n, c) ∈ es → m ≠ n := by
  intro es
  induction es with
  | nil => intro m n c _ hm; simp at hm
  | cons hd rest ih =>
    intro m n c hk hm
    obtain ⟨a, b⟩ := hd
    rw [keyFree, Bool.and_eq_true] at hk
    rcases List.mem_cons.1 hm with hm | hm
    · have h2 : n = a ∧ c = b := by simpa using hm
      have hne : a ≠ m := by simpa using hk.1
      rw [h2.1]
      exact hne.symm
    · exact ih m n c hk.2 hm

theorem lookupChild_of_wf :
    ∀ (es : List (Nat × ENode)) (n : Nat) (c : ENode),
      wfEntries es = true → (n, c) ∈ es → lookupChild n es = some c := by
  intro es
  induction es with
  | nil => intro n c _ hm; simp at hm
  | cons hd rest ih =>
    intro n c hwf hm
    obtain ⟨a, b⟩ := hd
    rw [wfEntries, Bool.and_eq_true, Bool.and_eq_true] at hwf
    rcases List.mem_cons.1 hm with hm | hm
    · have h2 : n = a ∧ c = b := by simpa using hm
      rw [lookupChild, if_pos h2.1.symm, h2.2]
    · have hne : a ≠ n := keyFree_ne rest a n c hwf.1.1 hm
      rw [lookupChild, if_neg hne]
      exact ih n c hwf.2 hm

theorem wfEntries_mem :
    ∀ (es : List (Nat × ENode)) (n : Nat) (c : ENode),
      wfEntries es = true → (n, c) ∈ es → wfN c = true := by
  intro es
  induction es with
  | nil => intro n c _ hm; simp at hm
  | cons hd rest ih =>
    intro n c hwf hm
    obtain ⟨a, b⟩ := hd
    rw [wfEntries, Bool.and_eq_true, Bool.and_eq_true] at hwf
    rcases List.mem_cons.1 hm with hm | hm
    · have h2 : n = a ∧ c = b := by simpa using hm
      rw [h2.2]
      exact hwf.1.2
    · exact ih n c hwf.2 hm

theorem errFreeList_mem :
    ∀ (es : List (Nat × ENode)) (n : Nat) (c : ENode),
      errFreeList es = true → (n, c) ∈ es → errFree c = true := by
  intro es
  induction es with
  | nil => intro n c _ hm; simp at hm
  | cons hd rest ih =>
    intro n c hef hm
    obtain ⟨a, b⟩ := hd
    rw [errFreeList, Bool.and_eq_true] at hef
    rcases List.mem_cons.1 hm with hm | hm
    · have h2 : n = a ∧ c = b := by simpa using hm
      rw [h2.2]
      exact hef.1
    · exact ih n c hef.2 hm

theorem resolveForest_child (root : Path) (t : ENode) (d : Path)
    (o : Option Err) (es : List (Nat × ENode)) (s : Option Err)
    (n : Nat) (c : ENode)
    (hd : resolveForest [(root, t)] d = some (.dir o es s))
    (hwf : wfEntries es = true) (hc : (n, c) ∈ es) :
    resolveForest [(root, t)] (d ++ [n]) = some c := by
  rw [resolveForest_single_eq] at hd
  cases hs : stripRoot root d with
  | none => rw [hs] at hd; exact absurd hd (by simp)
  | some q =>
    rw [hs] at hd
    have hr : resolveNode t q = some (.dir o es s) := by simpa using hd
    rw [resolveForest_single_eq, stripRoot_append root d q [n] hs]
    show resolveNode t (q ++ [n]) = some c
    rw [resolveNode_append, hr, childOf]
    exact lookupChild_of_wf es n c hwf hc

theorem lookupChild_mem :
    ∀ (es : List (Nat × ENode)) (n : Nat) (c : ENode),
      lookupChild n es = some c → (n, c) ∈ es := by
  intro es
  induction es with
  | nil => intro n c h; simp [lookupChild] at h
  | cons hd rest ih =>
    intro n c h
    obtain ⟨a, b⟩ := hd
    rw [lookupChild] at h
    by_cases hab : a = n
    · rw [if_pos hab] at h
      obtain rfl : b = c := by simpa using h
      subst hab
      exact List.mem_cons_self _ _
    · rw [if_neg hab] at h
      exact List.mem_cons_of_mem _ (ih n c h)

theorem wfN_resolveNode :
    ∀ (q : List Nat) (t : ENode) (x : ENode),
      wfN t = true → resolveNode t q = some x → wfN x = true := by
  intro q
  induction q with
  | nil =>
    intro t x hw h
    obtain rfl : t = x := by simpa [resolveNode] using h
    exact hw
  | cons m qs ih =>
    intro t x hw h
    cases t with
    | file => simp [resolveNode] at h
    | bad e => simp [resolveNode] at h
    | dir o es s =>
      rw [resolveNode] at h
      cases hl : lookupChild m es with
      | none => rw [hl] at h; exact absurd h (by simp)
      | some c =>
        rw [hl] at h
        have hc : (m, c) ∈ es := lookupChild_mem es m c hl
        exact ih c x (wfEntries_mem es m c hw (lookupChild_mem es m c hl)) h

/-! ### The filesystem environment of a resolved node -/

theorem isDir_of_resolve (f : List (Path × ENode)) (p : Path) (n : ENode)
    (h : resolveForest f p = some n) :
    (fsOfForest f).is_dir p = probeOf n := by
  show (match resolveForest f p with
        | some n => probeOf n
        | none => .error 0) = probeOf n
  rw [h]

theorem read_dir_ok_inv (f : List (Path × ENode)) (p : Path)
    (stream : List (Except Err Path))
    (h : (fsOfForest f).read_dir p = .ok stream) :
    ∃ es s, resolveForest f p = some (.dir none es s) ∧
      stream = entriesOf p es s := by
  have h2 : (match resolveForest f p with
      | some (.dir none es s) => Except.ok (entriesOf p es s)
      | some (.dir (some e) _ _) => Except.error e
      | some _ => Except.error 1
      | none => Except.error 0) = Except.ok stream := h
  cases hr : resolveForest f p with
  | none => rw [hr] at h2; exact absurd h2 (by simp)
  | some nd =>
    rw [hr] at h2
    cases nd with
    | file => exact absurd h2 (by simp)
    | bad e => exact absurd h2 (by simp)
    | dir o es s =>
      cases o with
      | none =>
        refine ⟨es, s, rfl, ?_⟩
        have h3 : Except.ok (entriesOf p es s) = Except.ok stream := h2
        simpa using h3.symm
      | some e => exact absurd h2 (by simp)

/-! ### Weight and pending lemmas -/

theorem esize_pos : ∀ (n : ENode), 1 ≤ esize n := by
  intro n
  cases n with
  | file => simp [esize]
  | bad e => simp [esize]
  | dir o es s => rw [esize]; exact Nat.le_add_right 1 _

theorem weight_pos (f : List (Path × ENode)) (p : Path) : 1 ≤ weight f p := by
  rw [weight]
  cases h : resolveForest f p with
  | none => exact Nat.le_refl 1
  | some n => exact esize_pos n

theorem weight_of_resolve (f : List (Path × ENode)) (p : Path) (n : ENode)
    (h : resolveForest f p = some n) : weight f p = esize n := by
  rw [weight, h]

theorem weightDirs_append (f : List (Path × ENode)) :
    ∀ (l1 l2 : List Path),
      weightDirs f (l1 ++ l2) = weightDirs f l1 + weightDirs f l2 := by
  intro l1
  induction l1 with
  | nil => intro l2; simp [weightDirs]
  | cons d ds ih =>
    intro l2
    rw [List.cons_append, weightDirs, weightDirs, ih]
    ring

theorem pendingDirs_append (f : List (Path × ENode)) :
    ∀ (l1 l2 : List Path),
      pendingDirs f (l1 ++ l2) = pendingDirs f l1 + pendingDirs f l2 := by
  intro l1
  induction l1 with
  | nil => intro l2; simp [pendingDirs]
  | cons d ds ih =>
    intro l2
    rw [List.cons_append, pendingDirs, pendingDirs, ih]
    exact (add_assoc _ _ _).symm

theorem efilesAt_of_resolve (f : List (Path × ENode)) (p : Path) (n : ENode)
    (h : resolveForest f p = some n) : efilesAt f p = efiles p n := by
  rw [efilesAt, h]

theorem wfN_resolveForest (root : Path) (t : ENode) (p : Path) (x : ENode)
    (hwf : wfN t = true) (h : resolveForest [(root, t)] p = some x) :
    wfN x = true := by
  rw [resolveForest_single_eq] at h
  cases hs : stripRoot root p with
  | none => rw [hs] at h; exact absurd h (by simp)
  | some q =>
    rw [hs] at h
    exact wfN_resolveNode q t x hwf (by simpa using h)

theorem read_dir_of_dir (f : List (Path × ENode)) (p : Path)
    (es : List (Nat × ENode)) (s : Option Err)
    (h : resolveForest f p = some (.dir none es s)) :
    (fsOfForest f).read_dir p = .ok (entriesOf p es s) := by
  show (match resolveForest f p with
      | some (.dir none es s) => Except.ok (entriesOf p es s)
      | some (.dir (some e) _ _) => Except.error e
      | some _ => Except.error 1
      | none => Except.error 0) = Except.ok (entriesOf p es s)
  rw [h]

/-! ### State-update lemmas for `phi` and `pendingOf` -/

theorem phi_files_push (f : List (Path × ENode)) (ex : Explorer) (p : Path) :
    phi f { ex with walk_files := ex.walk_files ++ [p] } = phi f ex + 1 := by
  simp only [phi, List.length_append, List.length_singleton]
  omega

theorem phi_dirs_push (f : List (Path × ENode)) (ex : Explorer) (p : Path) :
    phi f { ex with walk_dirs := ex.walk_dirs ++ [p] } =
      phi f ex + weight f p := by
  simp only [phi, weightDirs_append, weightDirs]
  omega

theorem phi_failed_set (f : List (Path × ENode)) (ex : Explorer)
    (fp : List (Path × Err)) :
    phi f { ex with failed_paths := fp } = phi f ex := rfl

theorem pendingOf_files_push (f : List (Path × ENode)) (ex : Explorer)
    (p : Path) :
    pendingOf f { ex with walk_files := ex.walk_files ++ [p] } =
      pendingOf f ex + {p} := by
  show ((ex.walk_files ++ [p] : List Path) : Multiset Path) +
      pendingDirs f ex.walk_dirs = _
  rw [← Multiset.coe_add, Multiset.coe_singleton]
  rw [add_right_comm]
  rfl

theorem pendingOf_dirs_push (f : List (Path × ENode)) (ex : Explorer)
    (p : Path) :
    pendingOf f { ex with walk_dirs := ex.walk_dirs ++ [p] } =
      pendingOf f ex + (efilesAt f p : Multiset Path) := by
  show (ex.walk_files : Multiset Path) +
      pendingDirs f (ex.walk_dirs ++ [p]) = _
  rw [pendingDirs_append, pendingDirs, pendingDirs, add_zero, ← add_assoc]
  rfl

theorem pendingOf_failed_set (f : List (Path × ENode)) (ex : Explorer)
    (fp : List (Path × Err)) :
    pendingOf f { ex with failed_paths := fp } = pendingOf f ex := rfl

theorem GoodDirs_append (f : List (Path × ENode)) (l1 l2 : List Path)
    (h1 : GoodDirs f l1) (h2 : GoodDirs f l2) : GoodDirs f (l1 ++ l2) := by
  intro p hp
  rcases List.mem_append.1 hp with hp | hp
  · exact h1 p hp
  · exact h2 p hp

theorem GoodDirs_of_append_left (f : List (Path × ENode)) (l1 l2 : List Path)
    (h : GoodDirs f (l1 ++ l2)) : GoodDirs f l1 := by
  intro p hp
  exact h p (List.mem_append_left _ hp)

/-! ### The effect of `processEntries` on one expanded directory -/

theorem processEntries_entriesOf (f : List (Path × ENode)) (d : Path)
    (es : List (Nat × ENode)) (s : Option Err) (ex : Explorer) :
    processEntries (fsOfForest f) (entriesOf d es s) ex =
      processEntries (fsOfForest f)
        (es.map fun pr => Except.ok (d ++ [pr.1])) ex := by
  cases s with
  | none => simp [entriesOf]
  | some e =>
    rw [entriesOf]
    exact processEntries_stops_at_error (fsOfForest f) _ e [] ex

theorem processEntries_phi_le (f : List (Path × ENode)) (d : Path) :
    ∀ (es : List (Nat × ENode)) (ex : Explorer),
      (∀ pr ∈ es, resolveForest f (d ++ [pr.1]) = some pr.2) →
      phi f (processEntries (fsOfForest f)
          (es.map fun pr => Except.ok (d ++ [pr.1])) ex) ≤
        phi f ex + esizeList es := by
  intro es
  induction es with
  | nil => intro ex _; simp [processEntries, esizeList]
  | cons pr rest ih =>
    intro ex H
    obtain ⟨n, c⟩ := pr
    have hres : resolveForest f (d ++ [n]) = some c :=
      H (n, c) (List.mem_cons_self _ _)
    have hrest : ∀ pr ∈ rest, resolveForest f (d ++ [pr.1]) = some pr.2 :=
      fun pr hpr => H pr (List.mem_cons_of_mem _ hpr)
    rw [List.map_cons, processEntries, isDir_of_resolve f _ c hres]
    cases c with
    | file =>
      show phi f (processEntries (fsOfForest f) _
          { ex with walk_files := ex.walk_files ++ [d ++ [n]] }) ≤ _
      have h1 := ih { ex with walk_files := ex.walk_files ++ [d ++ [n]] } hrest
      have h2 := phi_files_push f ex (d ++ [n])
      have h3 : esizeList ((n, ENode.file) :: rest) = 1 + esizeList rest := by
        simp [esizeList, esize]
      omega
    | bad e =>
      show phi f (processEntries (fsOfForest f) _
          { ex with failed_paths := ex.failed_paths ++ [(d ++ [n], e)] }) ≤ _
      have h1 := ih { ex with
        failed_paths := ex.failed_paths ++ [(d ++ [n], e)] } hrest
      have h2 := phi_failed_set f ex (ex.failed_paths ++ [(d ++ [n], e)])
      have h3 : esizeList ((n, ENode.bad e) :: rest) = 1 + esizeList rest := by
        simp [esizeList, esize]
      omega
    | dir o es2 s2 =>
      show phi f (processEntries (fsOfForest f) _
          { ex with walk_dirs := ex.walk_dirs ++ [d ++ [n]] }) ≤ _
      have h1 := ih { ex with walk_dirs := ex.walk_dirs ++ [d ++ [n]] } hrest
      have h2 := phi_dirs_push f ex (d ++ [n])
      have h4 := weight_of_resolve f (d ++ [n]) _ hres
      have h3 : esizeList ((n, ENode.dir o es2 s2) :: rest) =
          (1 + esizeList es2) + esizeList rest := by
        simp [esizeList, esize]
      have h5 : esize (ENode.dir o es2 s2) = 1 + esizeList es2 := by
        simp [esize]
      omega

theorem processEntries_pending (root : Path) (t : ENode) (d : Path) :
    ∀ (es : List (Nat × ENode)) (ex : Explorer),
      (∀ pr ∈ es, resolveForest [(root, t)] (d ++ [pr.1]) = some pr.2 ∧
        wfN pr.2 = true ∧ errFree pr.2 = true) →
      GoodDirs [(root, t)] ex.walk_dirs →
      pendingOf [(root, t)] (processEntries (fsOfForest [(root, t)])
          (es.map fun pr => Except.ok (d ++ [pr.1])) ex) =
        pendingOf [(root, t)] ex + (efilesList d es : Multiset Path) ∧
      GoodDirs [(root, t)]
        (processEntries (fsOfForest [(root, t)])
          (es.map fun pr => Except.ok (d ++ [pr.1])) ex).walk_dirs := by
  intro es
  induction es with
  | nil =>
    intro ex _ hg
    refine ⟨?_, hg⟩
    simp [processEntries, efilesList]
  | cons pr rest ih =>
    intro ex H hg
    obtain ⟨n, c⟩ := pr
    obtain ⟨hres, hwfc, hefc⟩ := H (n, c) (List.mem_cons_self _ _)
    have hrest : ∀ pr ∈ rest,
        resolveForest [(root, t)] (d ++ [pr.1]) = some pr.2 ∧
        wfN pr.2 = true ∧ errFree pr.2 = true :=
      fun pr hpr => H pr (List.mem_cons_of_mem _ hpr)
    rw [List.map_cons, processEntries,
      isDir_of_resolve [(root, t)] _ c hres]
    dsimp only at hres hwfc hefc
    cases c with
    | file =>
      simp only [probeOf]
      have hih := ih { ex with
        walk_files := ex.walk_files ++ [d ++ [n]] } hrest hg
      refine ⟨?_, hih.2⟩
      rw [hih.1, pendingOf_files_push]
      have he : efilesList d ((n, ENode.file) :: rest) =
          (d ++ [n]) :: efilesList d rest := by
        simp [efilesList, efiles]
      rw [he, ← Multiset.cons_coe, ← Multiset.singleton_add, ← add_assoc]
    | bad e => exact absurd hefc (by simp [errFree])
    | dir o es2 s2 =>
      cases o with
      | some e => exact absurd hefc (by simp [errFree])
      | none =>
        cases s2 with
        | some e => exact absurd hefc (by simp [errFree])
        | none =>
          simp only [probeOf]
          have hgood2 : GoodDirs [(root, t)]
              (ex.walk_dirs ++ [d ++ [n]]) := by
            refine GoodDirs_append _ _ _ hg ?_
            intro p hp
            rw [List.mem_singleton] at hp
            subst hp
            exact ⟨es2, hres, by simpa [wfN] using hwfc,
              by simpa [errFree] using hefc⟩
          have hih := ih { ex with
            walk_dirs := ex.walk_dirs ++ [d ++ [n]] } hrest hgood2
          refine ⟨?_, hih.2⟩
          rw [hih.1, pendingOf_dirs_push,
            efilesAt_of_resolve _ _ _ hres]
          have he : efilesList d ((n, ENode.dir none es2 none) :: rest) =
              efiles (d ++ [n]) (ENode.dir none es2 none) ++
                efilesList d rest := by
            simp [efilesList]
          rw [he, ← Multiset.coe_add, ← add_assoc]

/-! ### Popping one element off a deque: effect on the measures -/

theorem phi_pop_file (f : List (Path × ENode)) (ex : Explorer) (p : Path)
    (rest : List Path) (h : ex.walk_files = rest ++ [p]) :
    phi f ex = phi f { ex with walk_files := rest } + 1 := by
  rw [phi, h, List.length_append]
  show rest.length + 1 + weightDirs f ex.walk_dirs =
    rest.length + weightDirs f ex.walk_dirs + 1
  omega

theorem pendingOf_pop_file (f : List (Path × ENode)) (ex : Explorer)
    (p : Path) (rest : List Path) (h : ex.walk_files = rest ++ [p]) :
    pendingOf f ex = pendingOf f { ex with walk_files := rest } + {p} := by
  rw [pendingOf, h, ← Multiset.coe_add, Multiset.coe_singleton,
    add_right_comm]
  rfl

theorem phi_pop_dir (f : List (Path × ENode)) (ex : Explorer) (d : Path)
    (rest : List Path) (h : ex.walk_dirs = rest ++ [d]) :
    phi f ex = phi f { ex with walk_dirs := rest } + weight f d := by
  rw [phi, h, weightDirs_append]
  simp only [weightDirs]
  show ex.walk_files.length + (weightDirs f rest + (weight f d + 0)) =
    ex.walk_files.length + weightDirs f rest + weight f d
  omega

theorem pendingOf_pop_dir (f : List (Path × ENode)) (ex : Explorer)
    (d : Path) (rest : List Path) (h : ex.walk_dirs = rest ++ [d]) :
    pendingOf f ex = pendingOf f { ex with walk_dirs := rest } +
      (efilesAt f d : Multiset Path) := by
  rw [pendingOf, h, pendingDirs_append]
  simp only [pendingDirs]
  rw [add_zero, ← add_assoc]
  rfl

/-! ### Totality of `next` over any decorated finite tree -/

theorem nextF_total (root : Path) (t : ENode) (hwf : wfN t = true) :
    ∀ (fuel : Nat) (ex : Explorer), phi [(root, t)] ex < fuel →
      ∃ r ex2, nextF (fsOfForest [(root, t)]) fuel ex = some (r, ex2) := by
  intro fuel
  induction fuel with
  | zero => intro ex h; exact absurd h (Nat.not_lt_zero _)
  | succ m ih =>
    intro ex hphi
    rw [nextF]
    cases hf : popBack ex.walk_files with
    | some pr =>
      obtain ⟨p, rest⟩ := pr
      simp only [hf]
      exact ⟨some p, _, rfl⟩
    | none =>
      simp only [hf]
      cases hd : popBack ex.walk_dirs with
      | none =>
        simp only [hd]
        exact ⟨none, ex, rfl⟩
      | some pr =>
        obtain ⟨d, rest⟩ := pr
        simp only [hd]
        have hsplit := popBack_eq_some _ _ _ hd
        have hw1 := phi_pop_dir [(root, t)] ex d rest hsplit
        have hwpos := weight_pos [(root, t)] d
        cases hr : (fsOfForest [(root, t)]).read_dir d with
        | error e =>
          simp only [hr]
          have hphi1 :
              phi [(root, t)]
                { ex with
                  walk_dirs := rest
                  failed_paths := ex.failed_paths ++ [(d, e)] } =
              phi [(root, t)] { ex with walk_dirs := rest } := rfl
          exact ih _ (by omega)
        | ok stream =>
          simp only [hr]
          obtain ⟨es, s, hres, rfl⟩ := read_dir_ok_inv _ _ _ hr
          rw [processEntries_entriesOf]
          have hwx : wfN (ENode.dir none es s) = true :=
            wfN_resolveForest root t d _ hwf hres
          have hwfes : wfEntries es = true := by simpa [wfN] using hwx
          have H : ∀ pr ∈ es,
              resolveForest [(root, t)] (d ++ [pr.1]) = some pr.2 := by
            intro pr hpr
            exact resolveForest_child root t d none es s pr.1 pr.2 hres hwfes
              (by simpa using hpr)
          have hple := processEntries_phi_le [(root, t)] d es
            { ex with walk_dirs := rest } H
          have hwd : weight [(root, t)] d = 1 + esizeList es := by
            rw [weight_of_resolve [(root, t)] d _ hres]
            simp [esize]
          exact ih _ (by omega)

/-! ### Exact emission over an error-free tree -/

theorem nextF_spec (root : Path) (t : ENode) :
    ∀ (fuel : Nat) (ex : Explorer),
      GoodDirs [(root, t)] ex.walk_dirs → phi [(root, t)] ex < fuel →
      ∃ r ex2, nextF (fsOfForest [(root, t)]) fuel ex = some (r, ex2) ∧
        GoodDirs [(root, t)] ex2.walk_dirs ∧
        (r = none → pendingOf [(root, t)] ex = 0) ∧
        (∀ p, r = some p →
          pendingOf [(root, t)] ex = pendingOf [(root, t)] ex2 + {p} ∧
          phi [(root, t)] ex2 < phi [(root, t)] ex) := by
  intro fuel
  induction fuel with
  | zero => intro ex _ h; exact absurd h (Nat.not_lt_zero _)
  | succ m ih =>
    intro ex hg hphi
    rw [nextF]
    cases hf : popBack ex.walk_files with
    | some pr =>
      obtain ⟨p, rest⟩ := pr
      simp only [hf]
      have hsplit := popBack_eq_some _ _ _ hf
      refine ⟨some p, _, rfl, hg, by simp, ?_⟩
      intro q hq
      obtain rfl : p = q := by simpa using hq
      refine ⟨pendingOf_pop_file [(root, t)] ex p _ hsplit, ?_⟩
      rw [phi_pop_file [(root, t)] ex p _ hsplit]
      omega
    | none =>
      simp only [hf]
      cases hd : popBack ex.walk_dirs with
      | none =>
        simp only [hd]
        refine ⟨none, ex, rfl, hg, ?_, by simp⟩
        intro _
        rw [pendingOf, (popBack_eq_none_iff _).1 hf,
          (popBack_eq_none_iff _).1 hd]
        rfl
      | some pr =>
        obtain ⟨d, rest⟩ := pr
        simp only [hd]
        have hsplit := popBack_eq_some _ _ _ hd
        have hdmem : d ∈ ex.walk_dirs := by rw [hsplit]; simp
        obtain ⟨es, hres, hwfes, hefes⟩ := hg d hdmem
        simp only [read_dir_of_dir [(root, t)] d es none hres]
        rw [processEntries_entriesOf]
        have H : ∀ pr ∈ es,
            resolveForest [(root, t)] (d ++ [pr.1]) = some pr.2 ∧
            wfN pr.2 = true ∧ errFree pr.2 = true := by
          intro pr hpr
          have hm : (pr.1, pr.2) ∈ es := by simpa using hpr
          exact ⟨resolveForest_child root t d none es none pr.1 pr.2 hres
              hwfes hm,
            wfEntries_mem es pr.1 pr.2 hwfes hm,
            errFreeList_mem es pr.1 pr.2 hefes hm⟩
        have hg1 : GoodDirs [(root, t)]
            (Explorer.walk_dirs { ex with walk_dirs := rest }) := by
          show GoodDirs [(root, t)] rest
          intro q hq
          exact hg q (by rw [hsplit]; exact List.mem_append_left _ hq)
        have hpend := processEntries_pending root t d es
          { ex with walk_dirs := rest } H hg1
        have hple := processEntries_phi_le [(root, t)] d es
          { ex with walk_dirs := rest } (fun pr hpr => (H pr hpr).1)
        have hw1 := phi_pop_dir [(root, t)] ex d rest hsplit
        have hwd : weight [(root, t)] d = 1 + esizeList es := by
          rw [weight_of_resolve [(root, t)] d _ hres]
          simp [esize]
        have hphi2 : phi [(root, t)] (processEntries (fsOfForest [(root, t)])
            (es.map fun pr => Except.ok (d ++ [pr.1]))
            { ex with walk_dirs := rest }) < phi [(root, t)] ex := by omega
        obtain ⟨r, ex3, hnext3, hg3, hnone3, hsome3⟩ :=
          ih _ hpend.2 (by omega)
        have h2 : efilesAt [(root, t)] d = efilesList d es := by
          rw [efilesAt_of_resolve _ _ _ hres]
          simp [efiles]
        have hpeq : pendingOf [(root, t)] ex =
            pendingOf [(root, t)] (processEntries (fsOfForest [(root, t)])
              (es.map fun pr => Except.ok (d ++ [pr.1]))
              { ex with walk_dirs := rest }) := by
          calc pendingOf [(root, t)] ex
              = pendingOf [(root, t)] { ex with walk_dirs := rest } +
                (efilesAt [(root, t)] d : Multiset Path) :=
                pendingOf_pop_dir [(root, t)] ex d rest hsplit
            _ = pendingOf [(root, t)] { ex with walk_dirs := rest } +
                (efilesList d es : Multiset Path) := by rw [h2]
            _ = _ := hpend.1.symm
        refine ⟨r, ex3, hnext3, hg3, ?_, ?_⟩
        · intro h
          rw [hpeq]
          exact hnone3 h
        · intro p hp
          obtain ⟨ha, hb⟩ := hsome3 p hp
          exact ⟨by rw [hpeq]; exact ha, by omega⟩

theorem drainF_spec (root : Path) (t : ENode) :
    ∀ (fuel : Nat) (ex : Explorer),
      GoodDirs [(root, t)] ex.walk_dirs → phi [(root, t)] ex < fuel →
      ∃ L, drainF (fsOfForest [(root, t)]) fuel ex = some L ∧
        (L : Multiset Path) = pendingOf [(root, t)] ex := by
  intro fuel
  induction fuel with
  | zero => intro ex _ h; exact absurd h (Nat.not_lt_zero _)
  | succ m ih =>
    intro ex hg hphi
    obtain ⟨r, ex2, hnext, hg2, hnone, hsome⟩ :=
      nextF_spec root t (m + 1) ex hg hphi
    rw [drainF, hnext]
    cases r with
    | none =>
      refine ⟨[], rfl, ?_⟩
      rw [hnone rfl]
      rfl
    | some p =>
      obtain ⟨hpend, hlt⟩ := hsome p rfl
      obtain ⟨L2, hd2, hm2⟩ := ih ex2 hg2 (by omega)
      refine ⟨p :: L2, ?_, ?_⟩
      · show Option.map (fun l => p :: l)
            (drainF (fsOfForest [(root, t)]) m ex2) = some (p :: L2)
        rw [hd2]
        rfl
      · rw [hpend, ← hm2, ← Multiset.cons_coe, ← Multiset.singleton_add,
          add_comm]

/-- Claim C7 (counterexample): the directory `/1` surfaces a genuine
I/O failure — its entry stream ends with error 8 — yet after the `next`
call that consumed that stream, `failed_paths` is EMPTY: the failure
was absorbed into neither `failed_paths` nor the diagnostic sink (the
`while let Ok(Some(..))` loop in `collector.rs` discards the `Err`
without even printing it), refuting the claim's "all failures absorbed"
conjunct. -/
theorem C7_counterexample :
    fsMidErrB.read_dir [1] = .ok [Except.ok [1, 0], Except.error 8] ∧
    (nextF fsMidErrB 2
        (FileExplorer.new [[1]] (fun _ => false) (fun _ => true)
          fsMidErrB)).map (fun r => (r.1, r.2.failed_paths)) =
      some (some [1, 0], []) :=
  ⟨rfl, rfl⟩

/-- Claim C7 (amended): over any finite filesystem tree decorated with
ANY combination of I/O failures (failing probes, failing directory
opens, mid-stream iteration errors, unresolvable paths), and from ANY
explorer state, `next` never produces an error result: given enough
fuel for its self-calls it completes with an ordinary `Option Path`
result — some path or none.  Directory-open failures and entry-probe
failures are absorbed into `failed_paths` (the pair is appended and
traversal continues); a mid-iteration iterator error is silently
dropped, absorbed neither into `failed_paths` nor the diagnostic
sink. -/
theorem C7_next_never_errors (root : Path) (t : ENode) (ex : Explorer)
    (hwf : wfN t = true) :
    (∃ fuel r ex2,
      nextF (fsOfForest [(root, t)]) fuel ex = some (r, ex2)) ∧
    (∀ (fs : Fs) (fuel : Nat) (ex1 : Explorer) (d : Path)
        (rest : List Path) (e : Err),
      ex1.walk_files = [] → popBack ex1.walk_dirs = some (d, rest) →
      fs.read_dir d = .error e →
      nextF fs (fuel + 1) ex1 =
        nextF fs fuel
          { ex1 with
            walk_dirs := rest
            failed_paths := ex1.failed_paths ++ [(d, e)] }) ∧
    (∀ (fs : Fs) (stream : List (Except Err Path)) (ex1 : Explorer)
        (p : Path) (e : Err),
      fs.is_dir p = .error e →
      processEntries fs (Except.ok p :: stream) ex1 =
        processEntries fs stream
          { ex1 with failed_paths := ex1.failed_paths ++ [(p, e)] }) ∧
    (∀ (fs : Fs) (stream : List (Except Err Path)) (ex1 : Explorer)
        (e : Err),
      processEntries fs (Except.error e :: stream) ex1 = ex1) := by
  refine ⟨?_, ?_, ?_, ?_⟩
  · obtain ⟨r, ex2, h⟩ := nextF_total root t hwf
      (phi [(root, t)] ex + 1) ex (Nat.lt_succ_self _)
    exact ⟨phi [(root, t)] ex + 1, r, ex2, h⟩
  · intro fs fuel ex1 d rest e h1 h2 h3
    rw [nextF]
    have hf : popBack ex1.walk_files = none := by
      rw [h1]
      rfl
    simp only [hf, h2, h3]
  · intro fs stream ex1 p e h
    rw [processEntries]
    simp only [h]
  · intro fs stream ex1 e
    rfl

/-- Witness for C7 on a tree exhibiting every failure kind, from a
state that also holds an unresolvable pending directory. -/
theorem C7_next_never_errors_witness :
    wfN treeMessy = true ∧
    ((∃ fuel r ex2,
      nextF (fsOfForest [([0], treeMessy)]) fuel exMessy = some (r, ex2)) ∧
    (∀ (fs : Fs) (fuel : Nat) (ex1 : Explorer) (d : Path)
        (rest : List Path) (e : Err),
      ex1.walk_files = [] → popBack ex1.walk_dirs = some (d, rest) →
      fs.read_dir d = .error e →
      nextF fs (fuel + 1) ex1 =
        nextF fs fuel
          { ex1 with
            walk_dirs := rest
            failed_paths := ex1.failed_paths ++ [(d, e)] }) ∧
    (∀ (fs : Fs) (stream : List (Except Err Path)) (ex1 : Explorer)
        (p : Path) (e : Err),
      fs.is_dir p = .error e →
      processEntries fs (Except.ok p :: stream) ex1 =
        processEntries fs stream
          { ex1 with failed_paths := ex1.failed_paths ++ [(p, e)] }) ∧
    (∀ (fs : Fs) (stream : List (Except Err Path)) (ex1 : Explorer)
        (e : Err),
      processEntries fs (Except.error e :: stream) ex1 = ex1)) :=
  ⟨by decide, C7_next_never_errors [0] treeMessy exMessy (by decide)⟩

/-- Claim C6 (confirmed): enumerating a single error-free finite tree
with an exclusions policy that excludes nothing and a filter that
accepts everything, repeatedly calling `next` until it returns none
emits exactly the multiset of files of the tree. -/
theorem C6_drain_emits_exactly_files (root : Path) (t : ENode)
    (excl filt : Path → Bool)
    (hef : errFree t = true) (hwf : wfN t = true)
    (_hexcl : ∀ p, excl p = false) (_hfilt : ∀ p, filt p = true) :
    ∃ fuel L,
      drainF (fsOfForest [(root, t)]) fuel
        (FileExplorer.new [root] excl filt (fsOfForest [(root, t)])) =
        some L ∧
      (L : Multiset Path) = (efiles root t : Multiset Path) := by
  have hroot := resolveForest_root root t
  have hprobe : (fsOfForest [(root, t)]).is_dir root = probeOf t :=
    isDir_of_resolve [(root, t)] root t hroot
  have hD := new_walk_dirs [root] excl filt (fsOfForest [(root, t)])
  have hF := new_walk_files [root] excl filt (fsOfForest [(root, t)])
  cases t with
  | bad e => exact absurd hef (by simp [errFree])
  | file =>
    have hD2 : (FileExplorer.new [root] excl filt
        (fsOfForest [(root, ENode.file)])).walk_dirs = [] := by
      rw [hD]
      simp [hprobe, probeOf, isOkTrue]
    have hF2 : (FileExplorer.new [root] excl filt
        (fsOfForest [(root, ENode.file)])).walk_files = [root] := by
      rw [hF]
      simp [hprobe, probeOf, isOkFalse]
    have hgood : GoodDirs [(root, ENode.file)]
        (FileExplorer.new [root] excl filt
          (fsOfForest [(root, ENode.file)])).walk_dirs := by
      intro p hp
      rw [hD2] at hp
      exact absurd hp (by simp)
    obtain ⟨L, hL, hM⟩ := drainF_spec root ENode.file
      (phi [(root, ENode.file)] (FileExplorer.new [root] excl filt
        (fsOfForest [(root, ENode.file)])) + 1) _ hgood (Nat.lt_succ_self _)
    refine ⟨_, L, hL, ?_⟩
    rw [hM, pendingOf, hD2, hF2]
    simp [pendingDirs, efiles]
  | dir o es s =>
    cases o with
    | some e => exact absurd hef (by simp [errFree])
    | none =>
      cases s with
      | some e => exact absurd hef (by simp [errFree])
      | none =>
        have hefes : errFreeList es = true := by simpa [errFree] using hef
        have hwfes : wfEntries es = true := by simpa [wfN] using hwf
        have hD2 : (FileExplorer.new [root] excl filt
            (fsOfForest [(root, ENode.dir none es none)])).walk_dirs =
            [root] := by
          rw [hD]
          simp [hprobe, probeOf, isOkTrue]
        have hF2 : (FileExplorer.new [root] excl filt
            (fsOfForest [(root, ENode.dir none es none)])).walk_files =
            [] := by
          rw [hF]
          simp [hprobe, probeOf, isOkFalse]
        have hgood : GoodDirs [(root, ENode.dir none es none)]
            (FileExplorer.new [root] excl filt
              (fsOfForest [(root, ENode.dir none es none)])).walk_dirs := by
          intro p hp
          rw [hD2] at hp
          rw [List.mem_singleton] at hp
          subst hp
          exact ⟨es, hroot, hwfes, hefes⟩
        obtain ⟨L, hL, hM⟩ := drainF_spec root (ENode.dir none es none)
          (phi [(root, ENode.dir none es none)]
            (FileExplorer.new [root] excl filt
              (fsOfForest [(root, ENode.dir none es none)])) + 1) _
          hgood (Nat.lt_succ_self _)
        refine ⟨_, L, hL, ?_⟩
        rw [hM, pendingOf, hD2, hF2]
        simp only [pendingDirs]
        rw [efilesAt_of_resolve _ _ _ hroot]
        simp

/-- Witness for C6 on the concrete tree with files `/0/0`, `/0/1/2`
and `/0/3`. -/
theorem C6_drain_emits_exactly_files_witness :
    errFree treeSmall = true ∧ wfN treeSmall = true ∧
    (∃ fuel L,
      drainF (fsOfForest [([0], treeSmall)]) fuel
        (FileExplorer.new [[0]] (fun _ => false) (fun _ => true)
          (fsOfForest [([0], treeSmall)])) = some L ∧
      (L : Multiset Path) = (efiles [0] treeSmall : Multiset Path)) :=
  ⟨by decide, by decide,
    C6_drain_emits_exactly_files [0] treeSmall (fun _ => false)
      (fun _ => true) (by decide) (by decide) (fun _ => rfl) (fun _ => rfl)⟩

end DupFiles
